import Mathlib

/-!
Verification development for the ICP build-verifier repository.

Strings of the TypeScript / bash sources are embedded as `List Char`
(abbreviated `Str`); JavaScript `string | null` values become `Option Str`,
with JavaScript truthiness (`null` and `""` are falsy) made explicit.
File-system and process effects are embedded by passing the observed
inputs (file contents, external tool results, existence checks) as
explicit arguments and returning the produced outputs (exit codes,
recorded statuses) as values.
-/

namespace BuildVerifier

/-- Strings of the source, embedded as lists of characters. -/
abbrev Str := List Char

/-- JavaScript `toLowerCase()` on an ASCII hex/URL string. -/
def lowerStr (s : Str) : Str := s.map Char.toLower

/-- JavaScript truthiness of a `string | null` value:
`null` and the empty string are falsy. -/
def truthy (o : Option Str) : Bool :=
  match o with
  | none => false
  | some s => !s.isEmpty

/-- The three-way status returned by `compareHashes`
(src `compare-hash.ts`). -/
inductive HashStatus where
  | verified
  | failed
  | error
deriving DecidableEq, Repr

/-- `compareHashes(actualHash, expectedHash)` from `compare-hash.ts`:
returns `{match:false, status:'error'}` when `expectedHash` is falsy
(null or empty), otherwise compares case-insensitively. -/
def compareHashes (actualHash : Str) (expectedHash : Option Str) :
    Bool × HashStatus :=
  if truthy expectedHash = false then (false, .error)
  else
    let m := decide (lowerStr actualHash = lowerStr (expectedHash.getD []))
    (m, if m then .verified else .failed)

/-- Input state observed by the argument-aware hash-verification CLI
(`main` of the newer `compare-hash.ts` variant): the computed artifact
hash, the hashes declared by the proposal, the extracted upgrade-argument
literal from the build plan, and the result of the external
`didc encode` + SHA-256 pipeline (`none` when `didc` failed). -/
structure VerifyInput where
  actualWasmHash : Str
  expectedWasmHash : Option Str
  expectedArgHash : Option Str
  upgradeArgs : Option Str
  didcArgHash : Option Str

/-- `wasmMatch` of the argument-aware `main`. -/
def wasmMatchOf (inp : VerifyInput) : Bool :=
  (compareHashes inp.actualWasmHash inp.expectedWasmHash).1

/-- `argMatch` of the argument-aware `main`: defaults to `true` when the
proposal declares no argument hash; `false` when an argument hash is
declared but no argument literal was extracted, or when `didc` failed;
otherwise a case-insensitive comparison of the computed hash. -/
def argMatchOf (inp : VerifyInput) : Bool :=
  if truthy inp.expectedArgHash then
    if truthy inp.upgradeArgs then
      match inp.didcArgHash with
      | some h => decide (lowerStr h = lowerStr (inp.expectedArgHash.getD []))
      | none => false
    else false
  else true

/-- `overallMatch = wasmMatch && argMatch` of the argument-aware `main`. -/
def overallMatchOf (inp : VerifyInput) : Bool :=
  wasmMatchOf inp && argMatchOf inp

/-- Process exit code of the argument-aware `main`:
`0` iff `overallMatch`. -/
def exitCodeOf (inp : VerifyInput) : Nat :=
  if overallMatchOf inp then 0 else 1

/-- `main` of the older `compare-hash.ts` (state-recording variant):
given the computed artifact hash and the proposal's expected hash, it
returns the process exit code together with the status written to the
state store.  Its `match` is the JS expression
`expectedHash && actual.toLowerCase() === expected.toLowerCase()`. -/
def oldCompareMain (actualHash : Str) (expectedHash : Option Str) :
    Nat × HashStatus :=
  let matchB := truthy expectedHash &&
    decide (lowerStr actualHash = lowerStr (expectedHash.getD []))
  if matchB then (0, .verified)
  else if truthy expectedHash then (1, .failed)
  else (0, .error)

/-- Strip the suffix `suf` from `u` when it is present, as the
`sed 's/suf$//'`-style substitutions and the `.replace(/suf$/, '')`
patterns of the sources do. -/
def stripSuffixIf (suf u : Str) : Str :=
  if suf <:+ u then u.take (u.length - suf.length) else u

/-- The canonical large-monorepo URL. -/
def CANON : Str := "https://github.com/dfinity/ic".data

/-- The `ic-monorepo` profile literal. -/
def ICM : Str := "ic-monorepo".data

/-- The `standard` profile literal. -/
def STD : Str := "standard".data

/-- The sibling repository URL sharing the canonical URL as a name
prefix. -/
def ICBOUNDARY : Str := "https://github.com/dfinity/ic-boundary".data

/-- The literal `.git` suffix. -/
def gitS : Str := ['.', 'g', 'i', 't']

/-- The literal `/` suffix. -/
def slashS : Str := ['/']

/-- The inline normalization of the shell `detect_profile` function
(embedded build script in `search-forum.ts`):
`sed 's/\.git$//'` followed by `sed 's:/$::'`. -/
def detect_profile_normalize (u : Str) : Str :=
  stripSuffixIf slashS (stripSuffixIf gitS u)

/-- The shell `detect_profile` fallback of the embedded build script:
exact comparison of its normalized URL against the canonical URL. -/
def detect_profile (u : Str) : Str :=
  if detect_profile_normalize u = CANON then ICM else STD

/-- The monorepo check of the `part_004` build script:
`[[ "$REPO_URL" == *"github.com/dfinity/ic"* ]]`, a substring test. -/
def IS_IC_MONOREPO (repoUrl : Str) : Bool :=
  decide ("github.com/dfinity/ic".data <:+: repoUrl)

/-- Hex digits as they appear in commit hashes (`[0-9a-f]`). -/
def hexDigit (c : Char) : Bool :=
  ('0' ≤ c && c ≤ '9') || ('a' ≤ c && c ≤ 'f')

/-- The literal `/tree/` segment marker. -/
def treeS : Str := ['/', 't', 'r', 'e', 'e', '/']

/-- The literal `/commit/` segment marker. -/
def commitS : Str := ['/', 'c', 'o', 'm', 'm', 'i', 't', '/']

/-- Strip a trailing `/tree/<hash>` or `/commit/<hash>` segment: split
off the maximal trailing run of hex digits, and if it is nonempty and
what remains ends in `/tree/` or `/commit/`, drop the whole segment. -/
def stripTreeCommit (u : Str) : Str :=
  let hexPart := u.reverse.takeWhile hexDigit
  let core := (u.reverse.dropWhile hexDigit).reverse
  if hexPart ≠ [] ∧ treeS <:+ core then core.take (core.length - treeS.length)
  else if hexPart ≠ [] ∧ commitS <:+ core then
    core.take (core.length - commitS.length)
  else u

/-- Modelled from the spec: `normalizeRepoUrl` of `extract-build-steps.ts`
is exercised by the repository's test suite but its definition is not in
the provided sources.  Per the spec it "strips a trailing slash, a
trailing `.git`, a trailing `/tree/<hash>` or `/commit/<hash>` segment";
the order (slash, then `.git`, then segment) is fixed by the test
expecting `.git/` to be stripped entirely. -/
def normalizeRepoUrl (u : Str) : Str :=
  stripTreeCommit (stripSuffixIf gitS (stripSuffixIf slashS u))

/-- The URL-suffix shapes handled by `normalizeRepoUrl`, for a given
trailing hash literal `h`: nothing, a trailing slash, `.git`, `.git/`,
`/tree/<h>`, `/commit/<h>`, and the latter two with a trailing slash. -/
def shapes (h : Str) : List Str :=
  [[], slashS, gitS, gitS ++ slashS, treeS ++ h, commitS ++ h,
   treeS ++ h ++ slashS, commitS ++ h ++ slashS]

/-- Outcome of an artifact-locating copy step of the build scripts. -/
inductive LocateOutcome where
  | copied (source : Str)
  | notFound
deriving DecidableEq, Repr

/-- The full-build artifact copy step (`part_003` lines 84-92,
`part_004` lines 188-199, `scripts/build.sh`): if a file exists at the
declared `wasmOutputPath` it is copied; otherwise the script prints the
(up to 20) recursive `find . -name "*.wasm"` results and exits 1.  The
search results never influence the outcome. -/
def fullBuildLocate (declaredExists : Bool) (wasmOutputPath : Str)
    (searchResults : List Str) : LocateOutcome × Nat :=
  if declaredExists then (.copied wasmOutputPath, 0)
  else
    let _diagnostics := searchResults.take 20
    (.notFound, 1)

/-- The targeted-build artifact copy step (`part_004` lines 166-187):
if the derived `bazel-bin` output path exists it is copied; otherwise
the first `find bazel-bin -name "$WASM_FILENAME"` result is copied, and
only if that search is empty does the script exit 1. -/
def targetedLocate (bazelOutputExists : Bool) (bazelOutput : Str)
    (searchResults : List Str) : LocateOutcome × Nat :=
  if bazelOutputExists then (.copied bazelOutput, 0)
  else
    match searchResults with
    | f :: _ => (.copied f, 0)
    | [] => (.notFound, 1)

/-- The argument hash actually computed during a run: the CLI only
invokes the external encoder when an argument literal was extracted. -/
def computedArgHashOf (inp : VerifyInput) : Option Str :=
  if truthy inp.upgradeArgs then inp.didcArgHash else none

/-- Stated from the spec's words, as the refinement target for the
overall-verdict claim: the artifact hash matches the declared expected
hash, and either no upgrade-argument hash is declared or the computed
argument hash matches it (case-insensitively). -/
def specVerifiedResult (inp : VerifyInput) : Prop :=
  (∃ e, inp.expectedWasmHash = some e ∧ e ≠ [] ∧
    lowerStr inp.actualWasmHash = lowerStr e) ∧
  (truthy inp.expectedArgHash = false ∨
    ∃ h, computedArgHashOf inp = some h ∧
      lowerStr h = lowerStr (inp.expectedArgHash.getD []))

/-- JSON values, as produced by `JSON.parse` in
`parseGeminiResponse` (src `extract-build-steps.ts`). -/
inductive JsonVal where
  | jstr (s : Str)
  | jnum (n : Int)
  | jbool (b : Bool)
  | jnull
  | jarr (xs : List JsonVal)
  | jobj (fields : List (Str × JsonVal))

/-- Property access `j.k` in JavaScript: field lookup on objects,
`undefined` (here `none`) on everything else. -/
def jsonField : JsonVal → Str → Option JsonVal
  | .jobj fields, k => lookupField fields k
  | _, _ => none
where
  lookupField : List (Str × JsonVal) → Str → Option JsonVal
    | [], _ => none
    | (k', v) :: rest, k => if k' = k then some v else lookupField rest k

/-- JavaScript truthiness of a JSON value. -/
def jsTruthy : JsonVal → Bool
  | .jstr s => !s.isEmpty
  | .jnum n => n != 0
  | .jbool b => b
  | .jnull => false
  | .jarr _ => true
  | .jobj _ => true

/-- JavaScript `a || b` on a possibly-undefined value. -/
def jsOr (o : Option JsonVal) (dflt : JsonVal) : JsonVal :=
  match o with
  | some v => if jsTruthy v then v else dflt
  | none => dflt

/-- Array test `Array.isArray`. -/
def isJsonArr : Option JsonVal → Bool
  | some (.jarr _) => true
  | _ => false

/-- The structured result built by `parseGeminiResponse`
(second `extract-build-steps.ts` variant): note the `steps` elements are
kept as raw JSON values, exactly as the source does. -/
structure ExtractResult where
  repoUrl : JsonVal
  steps : List JsonVal
  wasmOutputPath : JsonVal

/-- Default repository URL used by `parseGeminiResponse`. -/
def defaultRepoUrl : Str := "https://github.com/dfinity/ic".data

/-- Default artifact output path used by `parseGeminiResponse`. -/
def defaultWasmPath : Str := "output.wasm".data

/-- `parseGeminiResponse` (src `extract-build-steps.ts`, second variant),
after code-fence stripping: the input is the result of `JSON.parse`
(`none` when parsing threw).  It throws — returns `none` — when parsing
failed or when `parsed.steps` is not an array (`Array.isArray`); element
types of `steps` are not inspected.  `repoUrl` and `wasmOutputPath`
default via `||` when falsy or absent. -/
def parseGeminiResponse (parsed : Option JsonVal) : Option ExtractResult :=
  match parsed with
  | none => none
  | some j =>
    match jsonField j "steps".data with
    | some (.jarr xs) =>
      some { repoUrl := jsOr (jsonField j "repoUrl".data) (.jstr defaultRepoUrl)
             steps := xs
             wasmOutputPath :=
               jsOr (jsonField j "wasmOutputPath".data) (.jstr defaultWasmPath) }
    | _ => none

/-- Proposal summary record used by the monitor
(src `monitor-proposals.ts`). -/
structure ProposalInfo where
  id : Nat
  topic : Int
  status : Int
  proposer : Nat
  title : Str
deriving DecidableEq, Repr

/-- JavaScript `id.toString()` on a proposal identifier. -/
def natToStr (n : Nat) : Str := (toString n).data

/-- `filterNewProposals` (src `monitor-proposals.ts` lines 24-50):
keeps a proposal when its id is at least the minimum, its topic is
tracked, and its decimal id string has no existing workflow run. -/
def filterNewProposals (proposals : List ProposalInfo)
    (trackedTopics : List Int) (existingRunProposalIds : List Str)
    (minProposalId : Nat) : List ProposalInfo :=
  proposals.filter fun p =>
    let idStr := natToStr p.id
    if p.id < minProposalId then false
    else if !(trackedTopics.contains p.topic) then false
    else if existingRunProposalIds.contains idStr then false
    else true

/-- Status values of a `VerifiedProposal` state entry
(src `update-state.ts`). -/
inductive VStatus where
  | pending
  | verified
  | failed
  | error
deriving DecidableEq, Repr

/-- A state entry / partial update, field-per-field: `none` models a key
that is absent from the JavaScript object (`Partial<VerifiedProposal>`). -/
structure VerifiedProposal where
  status : Option VStatus
  wasmHashMatch : Option Bool
  verifiedAt : Option Str
  runId : Option Nat
  actualHash : Option Str
  expectedHash : Option Str
  errorMessage : Option Str
deriving DecidableEq, Repr

/-- The empty object (spread of `undefined`). -/
def emptyVP : VerifiedProposal :=
  ⟨none, none, none, none, none, none, none⟩

/-- The persisted state document
(`state/verified-proposals.json`). -/
structure StateData where
  lastCheckedTimestamp : Nat
  proposals : Str → Option VerifiedProposal

/-- The JavaScript object spread
`{...existing, ...update, verifiedAt: now}` of `updateProposalState`:
keys present in `update` override, `verifiedAt` is always refreshed. -/
def spreadVP (old update : VerifiedProposal) (now : Str) : VerifiedProposal :=
  { status := update.status.or old.status
    wasmHashMatch := update.wasmHashMatch.or old.wasmHashMatch
    verifiedAt := some now
    runId := update.runId.or old.runId
    actualHash := update.actualHash.or old.actualHash
    expectedHash := update.expectedHash.or old.expectedHash
    errorMessage := update.errorMessage.or old.errorMessage }

/-- `updateProposalState` (src `update-state.ts` lines 32-46), embedded
as a transformer of the loaded state: one load-merge-save cycle, taking
the current clock reading `now` as an argument. -/
def updateProposalState (state : StateData) (proposalId : Str)
    (update : VerifiedProposal) (now : Str) : StateData :=
  let old := (state.proposals proposalId).getD emptyVP
  let merged := spreadVP old update now
  { lastCheckedTimestamp := state.lastCheckedTimestamp
    proposals := fun k => if k = proposalId then some merged else state.proposals k }

/-! Sanity checks mirroring the repository's `normalizeRepoUrl` and
`detectBuildProfile` test suite. -/

example : normalizeRepoUrl "https://github.com/dfinity/ic.git".data = CANON := by decide

example : normalizeRepoUrl "https://github.com/dfinity/ic/".data = CANON := by decide

example : normalizeRepoUrl "https://github.com/dfinity/ic/tree/abc123def456".data = CANON := by decide

example : normalizeRepoUrl "https://github.com/dfinity/ic/commit/abc123def456".data = CANON := by decide

example : normalizeRepoUrl "https://github.com/dfinity/ic.git/".data = CANON := by decide

example : normalizeRepoUrl CANON = CANON := by decide

example : normalizeRepoUrl "https://github.com/dfinity/dogecoin-canister.git".data = "https://github.com/dfinity/dogecoin-canister".data := by decide

example : detect_profile CANON = ICM := by decide

example : detect_profile "https://github.com/dfinity/ic.git".data = ICM := by decide

example : detect_profile "https://github.com/dfinity/ic/".data = ICM := by decide

example : detect_profile ICBOUNDARY = STD := by decide

example : IS_IC_MONOREPO ICBOUNDARY = true := by decide

example : compareHashes "9a8a90c6".data (some "9A8A90C6".data) = (true, .verified) := by decide

example : compareHashes "9a8a90c6".data (some "".data) = (false, .error) := by decide

/-! ### Hash comparison (C5) -/

/-- C5 counterexample: the claim quantifies over all hash strings, but at
the empty string `compareHashes(a, a)` is `{match:false, status:'error'}`,
not `{match:true, status:'verified'}` — the empty expected value falls
into the absent-hash guard. -/
theorem compareHashes_empty_refutes :
    compareHashes [] (some []) = (false, HashStatus.error) := by decide

/-- C5 amended: for a nonempty expected hash the comparison is
case-insensitive with `verified`/`failed` outcomes, and a `null` or
empty expected hash yields `error`; the three outcomes are exclusive by
these descriptions. -/
theorem compareHashes_spec (a s : Str) :
    (s ≠ [] → lowerStr a = lowerStr s →
      compareHashes a (some s) = (true, HashStatus.verified)) ∧
    (s ≠ [] → lowerStr a ≠ lowerStr s →
      compareHashes a (some s) = (false, HashStatus.failed)) ∧
    compareHashes a none = (false, HashStatus.error) ∧
    compareHashes a (some []) = (false, HashStatus.error) := by
  refine ⟨?_, ?_, by simp [compareHashes, truthy], by simp [compareHashes, truthy]⟩
  · intro hs hab
    have : (some s).getD [] = s := rfl
    simp [compareHashes, truthy, List.isEmpty_iff, hs, this, hab]
  · intro hs hab
    have : (some s).getD [] = s := rfl
    simp [compareHashes, truthy, List.isEmpty_iff, hs, this, hab]

/-- C5 witness: concrete instances of the amended comparison clauses. -/
theorem compareHashes_spec_witness :
    compareHashes "9A8a90C6".data (some "9a8A90c6".data) =
      (true, HashStatus.verified) ∧
    compareHashes "aa".data (some "bb".data) = (false, HashStatus.failed) ∧
    compareHashes "aa".data none = (false, HashStatus.error) :=
  ⟨(compareHashes_spec "9A8a90C6".data "9a8A90c6".data).1 (by decide) (by decide),
   (compareHashes_spec "aa".data "bb".data).2.1 (by decide) (by decide),
   (compareHashes_spec "aa".data "bb".data).2.2.1⟩

/-! ### Hash-verification CLI results (C2, C3, C4) -/

/-- `wasmMatch` holds exactly when a nonempty expected hash is declared
and matches case-insensitively. -/
theorem wasmMatch_iff (inp : VerifyInput) :
    wasmMatchOf inp = true ↔
      ∃ e, inp.expectedWasmHash = some e ∧ e ≠ [] ∧
        lowerStr inp.actualWasmHash = lowerStr e := by
  cases hew : inp.expectedWasmHash with
  | none => simp [wasmMatchOf, compareHashes, truthy, hew]
  | some e =>
    cases e with
    | nil => simp [wasmMatchOf, compareHashes, truthy, hew]
    | cons c t =>
      simp only [wasmMatchOf, compareHashes, truthy, hew, List.isEmpty_cons,
        Bool.not_false, Option.getD_some]
      constructor
      · intro hm
        exact ⟨c :: t, rfl, by simp, by simpa using hm⟩
      · rintro ⟨e', he', _, hl⟩
        obtain rfl : (c :: t) = e' := by simpa using he'
        simpa using hl

/-- `argMatch` holds exactly when no argument hash is declared or the
hash computed during the run matches it. -/
theorem argMatch_iff (inp : VerifyInput) :
    argMatchOf inp = true ↔
      (truthy inp.expectedArgHash = false ∨
        ∃ h, computedArgHashOf inp = some h ∧
          lowerStr h = lowerStr (inp.expectedArgHash.getD [])) := by
  by_cases hea : truthy inp.expectedArgHash
  · by_cases hua : truthy inp.upgradeArgs
    · cases hd : inp.didcArgHash with
      | none => simp [argMatchOf, computedArgHashOf, hea, hua, hd]
      | some hsh => simp [argMatchOf, computedArgHashOf, hea, hua, hd]
    · simp [argMatchOf, computedArgHashOf, hea, hua]
  · simp [argMatchOf, computedArgHashOf, hea]

/-- C3: the overall verdict of the argument-aware CLI is `VERIFIED`
exactly when the artifact hash matches the declared expected hash and
either no upgrade-argument hash is declared or the computed argument
hash matches it. -/
theorem overallMatch_iff_specVerified (inp : VerifyInput) :
    overallMatchOf inp = true ↔ specVerifiedResult inp := by
  rw [overallMatchOf, Bool.and_eq_true, wasmMatch_iff, argMatch_iff]
  rfl

/-- C2 counterexample: the older `compare-hash.ts` CLI exits with code
`0` when the proposal carries no expected artifact hash, recording
status `error` — the claim requires a nonzero exit for this
unverifiable state. -/
theorem oldCompareMain_absent_refutes :
    oldCompareMain "9a8a90c6".data none = (0, HashStatus.error) := by decide

/-- C2 amended: the argument-aware CLI exits `0` exactly on overall
verification success; the older CLI records `verified` only on a
case-insensitive match with a declared hash and records `error` exactly
when the expected hash is absent or empty, but in that unverifiable
case its exit code is `0` (only a declared-and-mismatched hash exits
nonzero). -/
theorem hash_cli_exit_spec (inp : VerifyInput) (a : Str) (e : Option Str) :
    (exitCodeOf inp = 0 ↔ overallMatchOf inp = true) ∧
    ((oldCompareMain a e).1 = 0 ↔
      (truthy e = true → lowerStr a = lowerStr (e.getD []))) ∧
    ((oldCompareMain a e).2 = HashStatus.verified ↔
      truthy e = true ∧ lowerStr a = lowerStr (e.getD [])) ∧
    ((oldCompareMain a e).2 = HashStatus.error ↔ truthy e = false) := by
  refine ⟨?_, ?_, ?_, ?_⟩
  · simp [exitCodeOf]
  · by_cases he : truthy e <;>
      by_cases hl : lowerStr a = lowerStr (e.getD []) <;>
      simp [oldCompareMain, he, hl]
  · by_cases he : truthy e <;>
      by_cases hl : lowerStr a = lowerStr (e.getD []) <;>
      simp [oldCompareMain, he, hl]
  · by_cases he : truthy e <;>
      by_cases hl : lowerStr a = lowerStr (e.getD []) <;>
      simp [oldCompareMain, he, hl]

/-- C2 witness: a declared, matching hash exits `0`; a declared,
mismatched hash exits nonzero with status `failed`; an absent hash
records `error`. -/
theorem hash_cli_exit_spec_witness :
    ((oldCompareMain "ab".data (some "AB".data)).1 = 0) ∧
    ¬ ((oldCompareMain "ab".data (some "cd".data)).2 = HashStatus.verified) ∧
    ((oldCompareMain "ab".data none).2 = HashStatus.error) :=
  ⟨((hash_cli_exit_spec ⟨[], none, none, none, none⟩ "ab".data
      (some "AB".data)).2.1).mpr (fun _ => by decide),
   fun hcon =>
    by
      have h := ((hash_cli_exit_spec ⟨[], none, none, none, none⟩ "ab".data
        (some "cd".data)).2.2.1).mp hcon
      exact absurd h.2 (by decide),
   ((hash_cli_exit_spec ⟨[], none, none, none, none⟩ "ab".data
      none).2.2.2).mpr (by decide)⟩

/-- C4: when the proposal declares an upgrade-argument hash but no
argument literal was extracted into the build plan, the argument-aware
CLI's overall verdict is `FAILED` and it exits nonzero — regardless of
the artifact-hash outcome. -/
theorem arg_declared_but_missing_fails (inp : VerifyInput)
    (hdecl : truthy inp.expectedArgHash = true)
    (hmiss : truthy inp.upgradeArgs = false) :
    overallMatchOf inp = false ∧ exitCodeOf inp = 1 := by
  have harg : argMatchOf inp = false := by
    simp [argMatchOf, hdecl, hmiss]
  have hov : overallMatchOf inp = false := by
    simp [overallMatchOf, harg]
  exact ⟨hov, by simp [exitCodeOf, hov]⟩

/-- C4 witness: a run whose artifact hash matches but whose declared
argument hash has no extracted literal still fails with exit code 1. -/
theorem arg_declared_but_missing_fails_witness :
    wasmMatchOf ⟨"aa".data, some "AA".data, some "bb".data, none, none⟩ = true ∧
    overallMatchOf ⟨"aa".data, some "AA".data, some "bb".data, none, none⟩ = false ∧
    exitCodeOf ⟨"aa".data, some "AA".data, some "bb".data, none, none⟩ = 1 :=
  ⟨by decide,
   (arg_declared_but_missing_fails
     ⟨"aa".data, some "AA".data, some "bb".data, none, none⟩
     (by decide) (by decide)).1,
   (arg_declared_but_missing_fails
     ⟨"aa".data, some "AA".data, some "bb".data, none, none⟩
     (by decide) (by decide)).2⟩

/-! ### Artifact locating (C7) -/

/-- C7 counterexample: on the full-build path, when no file exists at
the declared output path the script exits `1` without copying anything,
even though the recursive search found a `.wasm` candidate — the
claimed search fallback never produces an artifact there. -/
theorem fullBuildLocate_ignores_search_refutes :
    fullBuildLocate false "artifacts/canisters/governance-canister.wasm.gz".data
      ["./target/found-canister.wasm".data] = (LocateOutcome.notFound, 1) := rfl

/-- C7 amended: the full-build copy step succeeds exactly when a file
exists at the declared output path, and its outcome is independent of
the recursive search results (which are printed only as diagnostics);
the genuine search fallback exists only on the targeted-build path,
which succeeds exactly when the derived output path exists or the
search found a candidate. -/
theorem locate_exit_spec (d : Bool) (p : Str) (rs : List Str) :
    ((fullBuildLocate d p rs).2 = 0 ↔ d = true) ∧
    fullBuildLocate d p rs = fullBuildLocate d p [] ∧
    ((targetedLocate d p rs).2 = 0 ↔ d = true ∨ rs ≠ []) := by
  cases d <;> cases rs <;>
    simp [fullBuildLocate, targetedLocate]

/-! ### Structured-extraction validation (C8) -/

/-- C8 counterexample: a response whose `steps` field is an array of
non-strings passes `parseGeminiResponse` validation (only
`Array.isArray` is checked), so validation does not fail "exactly when
the build-command list is not a sequence of strings". -/
theorem parseGeminiResponse_nonstring_refutes :
    parseGeminiResponse (some (.jobj [("steps".data, .jarr [.jnum 1])])) =
      some ⟨.jstr defaultRepoUrl, [.jnum 1], .jstr defaultWasmPath⟩ := rfl

/-- C8 amended: extraction validation fails exactly when the response is
not parseable JSON or its `steps` field is not an array — element types
are not inspected — and in a structurally valid response the optional
`repoUrl` and `wasmOutputPath` fields default (to the canonical IC URL
and `output.wasm`) instead of erroring; no result is fabricated on
failure. -/
theorem parseGeminiResponse_spec (parsed : Option JsonVal) :
    ((parseGeminiResponse parsed).isSome = true ↔
      ∃ j xs, parsed = some j ∧
        jsonField j "steps".data = some (.jarr xs)) ∧
    (∀ j xs r, parsed = some j →
      jsonField j "steps".data = some (.jarr xs) →
      parseGeminiResponse parsed = some r →
      r.steps = xs ∧
      (jsonField j "repoUrl".data = none → r.repoUrl = .jstr defaultRepoUrl) ∧
      (jsonField j "wasmOutputPath".data = none →
        r.wasmOutputPath = .jstr defaultWasmPath)) := by
  constructor
  · cases parsed with
    | none => simp [parseGeminiResponse]
    | some j =>
      cases hj : jsonField j "steps".data with
      | none => simp [parseGeminiResponse, hj]
      | some v =>
        cases v <;> simp [parseGeminiResponse, hj]
  · intro j xs r hp hj hr
    subst hp
    rw [parseGeminiResponse, hj] at hr
    obtain rfl : ({ repoUrl := jsOr (jsonField j "repoUrl".data) (.jstr defaultRepoUrl)
                    steps := xs
                    wasmOutputPath := jsOr (jsonField j "wasmOutputPath".data)
                      (.jstr defaultWasmPath) } : ExtractResult) = r := by
      simpa using hr
    refine ⟨rfl, ?_, ?_⟩
    · intro hru; simp [hru, jsOr]
    · intro hwp; simp [hwp, jsOr]

/-- C8 witness: a valid response with an empty `steps` array and no
optional fields parses to the defaulted result. -/
theorem parseGeminiResponse_spec_witness :
    (parseGeminiResponse (some (.jobj [("steps".data, .jarr [])]))).isSome = true ∧
    (⟨.jstr defaultRepoUrl, [], .jstr defaultWasmPath⟩ : ExtractResult).steps = [] :=
  ⟨((parseGeminiResponse_spec (some (.jobj [("steps".data, .jarr [])]))).1).mpr
      ⟨_, [], rfl, rfl⟩,
   ((parseGeminiResponse_spec (some (.jobj [("steps".data, .jarr [])]))).2 _ []
      ⟨.jstr defaultRepoUrl, [], .jstr defaultWasmPath⟩ rfl rfl rfl).1⟩

/-! ### Proposal monitor filter (C9) -/

/-- C9: `filterNewProposals` keeps exactly the proposals whose topic is
tracked, whose identifier is at or above the minimum (equality
included), and whose identifier string has no existing run; it is a
pure filter, returning a sublist of its input. -/
theorem filterNewProposals_spec (ps : List ProposalInfo) (tr : List Int)
    (ex : List Str) (mn : Nat) :
    (∀ p, p ∈ filterNewProposals ps tr ex mn ↔
      p ∈ ps ∧ p.topic ∈ tr ∧ mn ≤ p.id ∧ ¬ natToStr p.id ∈ ex) ∧
    (filterNewProposals ps tr ex mn).Sublist ps := by
  refine ⟨?_, List.filter_sublist ps⟩
  intro p
  rw [filterNewProposals, List.mem_filter]
  constructor
  · rintro ⟨hmem, hf⟩
    by_cases h1 : p.id < mn
    · simp [h1] at hf
    · by_cases h2 : tr.contains p.topic
      · by_cases h3 : ex.contains (natToStr p.id)
        · simp [h1, h2, h3] at hf
          exact absurd (List.elem_iff.mp h3) hf.2
        · exact ⟨hmem, List.elem_iff.mp h2, by omega,
            fun hm => h3 (List.elem_iff.mpr hm)⟩
      · simp [h1, h2] at hf
        exact absurd hf.1 (fun hm => h2 (List.elem_iff.mpr hm))
  · rintro ⟨hmem, htopic, hmin, hex⟩
    refine ⟨hmem, ?_⟩
    have h1 : ¬ p.id < mn := by omega
    have h2 : tr.contains p.topic = true := List.elem_iff.mpr htopic
    have h3 : ex.contains (natToStr p.id) = false := by
      by_contra hc
      simp only [Bool.not_eq_false] at hc
      exact hex (List.elem_iff.mp hc)
    simp [h1, h2, h3, htopic, hex]

/-! ### Verification state store (C10) -/

/-- C10: one `updateProposalState` cycle refreshes the timestamp of the
targeted entry, overwrites exactly the supplied fields while preserving
the entry's other existing fields, and leaves every other proposal's
entry and `lastCheckedTimestamp` unchanged. -/
theorem updateProposalState_spec (st : StateData) (pid : Str)
    (upd : VerifiedProposal) (now : Str) :
    (updateProposalState st pid upd now).lastCheckedTimestamp =
      st.lastCheckedTimestamp ∧
    (∀ k, k ≠ pid →
      (updateProposalState st pid upd now).proposals k = st.proposals k) ∧
    ∃ e, (updateProposalState st pid upd now).proposals pid = some e ∧
      e.verifiedAt = some now ∧
      ∀ old, st.proposals pid = some old →
        (upd.status = none → e.status = old.status) ∧
        (∀ v, upd.status = some v → e.status = some v) ∧
        (upd.wasmHashMatch = none → e.wasmHashMatch = old.wasmHashMatch) ∧
        (∀ v, upd.wasmHashMatch = some v → e.wasmHashMatch = some v) ∧
        (upd.runId = none → e.runId = old.runId) ∧
        (∀ v, upd.runId = some v → e.runId = some v) ∧
        (upd.actualHash = none → e.actualHash = old.actualHash) ∧
        (∀ v, upd.actualHash = some v → e.actualHash = some v) ∧
        (upd.expectedHash = none → e.expectedHash = old.expectedHash) ∧
        (∀ v, upd.expectedHash = some v → e.expectedHash = some v) ∧
        (upd.errorMessage = none → e.errorMessage = old.errorMessage) ∧
        (∀ v, upd.errorMessage = some v → e.errorMessage = some v) := by
  refine ⟨rfl, ?_, ?_⟩
  · intro k hk
    simp [updateProposalState, hk]
  · refine ⟨spreadVP ((st.proposals pid).getD emptyVP) upd now, ?_, rfl, ?_⟩
    · simp [updateProposalState]
    · intro old hold
      rw [hold]
      refine ⟨?_, ?_, ?_, ?_, ?_, ?_, ?_, ?_, ?_, ?_, ?_, ?_⟩ <;>
        first
        | (intro hnone; simp [spreadVP, hnone, Option.or])
        | (intro v hv; simp [spreadVP, hv, Option.or])

/-- C10 witness: updating a stored entry overwrites the supplied status
field, preserves the untouched `expectedHash` field, refreshes the
timestamp, and leaves an unrelated proposal's entry and the
`lastCheckedTimestamp` unchanged. -/
theorem updateProposalState_spec_witness :
    (updateProposalState
        ⟨7, fun k => if k = "12345".data then
            some ⟨some .pending, some false, some "t0".data, none, none,
              some "exp".data, none⟩
          else none⟩
        "12345".data
        ⟨some .verified, some true, none, none, some "act".data, none, none⟩
        "t1".data).lastCheckedTimestamp = 7 ∧
    (updateProposalState
        ⟨7, fun k => if k = "12345".data then
            some ⟨some .pending, some false, some "t0".data, none, none,
              some "exp".data, none⟩
          else none⟩
        "12345".data
        ⟨some .verified, some true, none, none, some "act".data, none, none⟩
        "t1".data).proposals "99".data = none ∧
    ∃ e, (updateProposalState
        ⟨7, fun k => if k = "12345".data then
            some ⟨some .pending, some false, some "t0".data, none, none,
              some "exp".data, none⟩
          else none⟩
        "12345".data
        ⟨some .verified, some true, none, none, some "act".data, none, none⟩
        "t1".data).proposals "12345".data = some e ∧
      e.verifiedAt = some "t1".data ∧
      e.expectedHash = some "exp".data ∧
      e.status = some VStatus.verified := by
  have h := updateProposalState_spec
    ⟨7, fun k => if k = "12345".data then
        some ⟨some .pending, some false, some "t0".data, none, none,
          some "exp".data, none⟩
      else none⟩
    "12345".data
    ⟨some .verified, some true, none, none, some "act".data, none, none⟩
    "t1".data
  obtain ⟨e, he, hts, hf⟩ := h.2.2
  have hold : (fun k => if k = "12345".data then
      some (⟨some .pending, some false, some "t0".data, none, none,
        some "exp".data, none⟩ : VerifiedProposal)
    else none) "12345".data =
      some ⟨some .pending, some false, some "t0".data, none, none,
        some "exp".data, none⟩ := by decide
  have hfields := hf _ hold
  refine ⟨h.1, ?_, e, he, hts, ?_, ?_⟩
  · rw [h.2.1 "99".data (by decide)]
    decide
  · exact hfields.2.2.2.2.2.2.2.2.1 rfl
  · exact hfields.2.1 VStatus.verified rfl

/-! ### Suffix-stripping machinery -/

/-- Stripping a suffix that is literally appended recovers the base. -/
theorem stripSuffixIf_append (t suf : Str) : stripSuffixIf suf (t ++ suf) = t := by
  simp only [stripSuffixIf]
  rw [if_pos (show suf <:+ t ++ suf from ⟨t, rfl⟩), List.length_append,
    Nat.add_sub_cancel, List.take_left]

/-- Case analysis on `stripSuffixIf`: either the suffix was present and
is recovered by re-appending, or nothing was stripped. -/
theorem stripSuffixIf_cases (suf u : Str) :
    (stripSuffixIf suf u ++ suf = u) ∨
    (¬ suf <:+ u ∧ stripSuffixIf suf u = u) := by
  by_cases h : suf <:+ u
  · left
    obtain ⟨t, rfl⟩ := h
    rw [stripSuffixIf_append]
  · right
    refine ⟨h, ?_⟩
    simp only [stripSuffixIf]
    rw [if_neg h]

/-- A nonempty suffix of a list determines the list's last element. -/
theorem getLast?_of_suffix {suf u : Str} (h : suf <:+ u) (hne : suf ≠ []) :
    u.getLast? = suf.getLast? := by
  obtain ⟨t, rfl⟩ := h
  have hsome : suf.getLast?.isSome = true := List.getLast?_isSome.mpr hne
  rw [List.getLast?_append]
  cases hs : suf.getLast? with
  | none => rw [hs] at hsome; simp at hsome
  | some c => simp [Option.or]

/-- If the last characters differ, the suffix is not present and
`stripSuffixIf` is the identity. -/
theorem stripSuffixIf_noop {suf u : Str} {c d : Char}
    (hu : u.getLast? = some c) (hsuf : suf.getLast? = some d) (hne : c ≠ d) :
    stripSuffixIf suf u = u := by
  simp only [stripSuffixIf]
  rw [if_neg]
  intro h
  have hne' : suf ≠ [] := by
    intro h0
    rw [h0] at hsuf
    simp at hsuf
  rw [getLast?_of_suffix h hne', hsuf] at hu
  exact hne (Option.some.inj hu).symm

/-- `takeWhile` passes over a block whose elements all satisfy the
predicate. -/
theorem takeWhile_append_all {p : Char → Bool} (l₁ l₂ : List Char)
    (h : ∀ a ∈ l₁, p a = true) :
    (l₁ ++ l₂).takeWhile p = l₁ ++ l₂.takeWhile p := by
  induction l₁ with
  | nil => simp
  | cons a t ih =>
    have ha : p a = true := h a (by simp)
    simp only [List.cons_append, List.takeWhile_cons, ha, if_true]
    rw [ih (fun x hx => h x (by simp [hx]))]

/-- `dropWhile` drops a block whose elements all satisfy the
predicate. -/
theorem dropWhile_append_all {p : Char → Bool} (l₁ l₂ : List Char)
    (h : ∀ a ∈ l₁, p a = true) :
    (l₁ ++ l₂).dropWhile p = l₂.dropWhile p := by
  induction l₁ with
  | nil => simp
  | cons a t ih =>
    have ha : p a = true := h a (by simp)
    simp only [List.cons_append, List.dropWhile_cons, ha, if_true]
    exact ih (fun x hx => h x (by simp [hx]))

/-- Of two suffixes of the same list, the shorter is a suffix of the
longer. -/
theorem suffix_of_suffix_of_length_le {s₁ s₂ l : Str} (h₁ : s₁ <:+ l)
    (h₂ : s₂ <:+ l) (hl : s₁.length ≤ s₂.length) : s₁ <:+ s₂ := by
  have hll : s₂.length ≤ l.length := h₂.length_le
  have e₁ := List.suffix_iff_eq_drop.mp h₁
  have e₂ := List.suffix_iff_eq_drop.mp h₂
  rw [e₁, e₂]
  have harith : l.length - s₁.length =
      (l.length - s₂.length) +
        ((l.length - s₁.length) - (l.length - s₂.length)) := by omega
  rw [harith, ← List.drop_drop]
  exact List.drop_suffix _ _

/-! ### Repository classification (C1) -/

/-- C1 counterexample: the `part_004` build script's monorepo check
classifies the sibling repository `dfinity/ic-boundary` as the
large-monorepo profile via its substring match, although its normalized
URL is not the canonical monorepo URL — the claim requires every such
sibling to classify as standard. -/
theorem IS_IC_MONOREPO_sibling_refutes :
    IS_IC_MONOREPO ICBOUNDARY = true ∧
    detect_profile_normalize ICBOUNDARY ≠ CANON := by
  constructor
  · decide
  · decide

/-- C1 amended: the shell `detect_profile` fallback returns
`ic-monorepo` exactly for the canonical URL and its `/`, `.git` and
`/.git`-suffixed spellings (so the sibling `dfinity/ic-boundary`
classifies as `standard`), while the `part_004` build script instead
classifies any URL containing `github.com/dfinity/ic` as a substring —
including that sibling — as the monorepo. -/
theorem detect_profile_spec :
    (∀ u : Str, detect_profile u = ICM ↔
      (u = CANON ∨ u = CANON ++ slashS ∨ u = CANON ++ gitS ∨
        u = CANON ++ slashS ++ gitS)) ∧
    detect_profile ICBOUNDARY = STD ∧
    (∀ u : Str, IS_IC_MONOREPO u = true ↔
      "github.com/dfinity/ic".data <:+: u) := by
  refine ⟨?_, by decide, fun u => by simp [IS_IC_MONOREPO]⟩
  intro u
  constructor
  · intro hu
    have hnorm : detect_profile_normalize u = CANON := by
      by_contra hcon
      rw [detect_profile, if_neg hcon] at hu
      exact absurd hu (by decide)
    rw [detect_profile_normalize] at hnorm
    rcases stripSuffixIf_cases slashS (stripSuffixIf gitS u) with h1 | h1
    · rw [hnorm] at h1
      rcases stripSuffixIf_cases gitS u with h2 | h2
      · rw [← h1] at h2
        exact Or.inr (Or.inr (Or.inr h2.symm))
      · rw [h2.2] at h1
        exact Or.inr (Or.inl h1.symm)
    · have hvC : stripSuffixIf gitS u = CANON := by rw [← h1.2, hnorm]
      rcases stripSuffixIf_cases gitS u with h2 | h2
      · rw [hvC] at h2
        exact Or.inr (Or.inr (Or.inl h2.symm))
      · rw [h2.2] at hvC
        exact Or.inl hvC
  · intro hu
    rcases hu with rfl | rfl | rfl | rfl <;> decide

/-! ### URL normalization idempotence (C6) -/

/-- A nonempty all-hex string has a hex last character. -/
theorem hexLast {h : Str} (hne : h ≠ []) (hhex : ∀ c ∈ h, hexDigit c = true) :
    ∃ c, h.getLast? = some c ∧ hexDigit c = true := by
  have hsome : h.getLast?.isSome = true := List.getLast?_isSome.mpr hne
  cases hs : h.getLast? with
  | none => rw [hs] at hsome; simp at hsome
  | some c =>
    exact ⟨c, rfl, hhex c (List.mem_of_mem_getLast? (by simp [hs]))⟩

/-- Splitting the reversed URL `b ++ seg ++ h` at the maximal trailing
hex run: the hex part is exactly `h` and the core is `b ++ seg`,
provided `seg` ends in `/` and `h` is all hex. -/
theorem stripTC_parts (b seg h : Str) (hhex : ∀ c ∈ h, hexDigit c = true)
    (hseg : seg.reverse.head? = some '/') :
    (b ++ seg ++ h).reverse.takeWhile hexDigit = h.reverse ∧
    ((b ++ seg ++ h).reverse.dropWhile hexDigit).reverse = b ++ seg := by
  have hrev : (b ++ seg ++ h).reverse =
      h.reverse ++ (seg.reverse ++ b.reverse) := by
    simp [List.reverse_append]
  obtain ⟨sc, hsc⟩ : ∃ t, seg.reverse = '/' :: t := by
    cases hs : seg.reverse with
    | nil => rw [hs] at hseg; simp at hseg
    | cons x t =>
      rw [hs] at hseg
      simp only [List.head?_cons, Option.some.injEq] at hseg
      exact ⟨t, by rw [hseg]⟩
  have hall : ∀ a ∈ h.reverse, hexDigit a = true :=
    fun a ha => hhex a (List.mem_reverse.mp ha)
  constructor
  · rw [hrev, takeWhile_append_all _ _ hall, hsc, List.cons_append,
      List.takeWhile_cons]
    simp [show hexDigit '/' = false from by decide]
  · rw [hrev, dropWhile_append_all _ _ hall, hsc, List.cons_append,
      List.dropWhile_cons]
    simp only [show hexDigit '/' = false from by decide, Bool.false_eq_true,
      if_false]
    rw [← List.cons_append, ← hsc]
    simp [List.reverse_append]

/-- Stripping a trailing `/tree/<hash>` segment. -/
theorem stripTreeCommit_tree (b h : Str) (hne : h ≠ [])
    (hhex : ∀ c ∈ h, hexDigit c = true) :
    stripTreeCommit (b ++ treeS ++ h) = b := by
  obtain ⟨htw, hdw⟩ := stripTC_parts b treeS h hhex (by decide)
  simp only [stripTreeCommit]
  rw [htw, hdw]
  rw [if_pos ⟨by simpa [List.reverse_eq_nil_iff] using hne,
      List.suffix_append b treeS⟩]
  rw [List.length_append, Nat.add_sub_cancel, List.take_left]

/-- Stripping a trailing `/commit/<hash>` segment. -/
theorem stripTreeCommit_commit (b h : Str) (hne : h ≠ [])
    (hhex : ∀ c ∈ h, hexDigit c = true) :
    stripTreeCommit (b ++ commitS ++ h) = b := by
  obtain ⟨htw, hdw⟩ := stripTC_parts b commitS h hhex (by decide)
  have hnotree : ¬ treeS <:+ b ++ commitS := by
    intro hT
    have hC : commitS <:+ b ++ commitS := List.suffix_append b commitS
    have : treeS <:+ commitS :=
      suffix_of_suffix_of_length_le hT hC (by decide)
    exact absurd this (by decide)
  simp only [stripTreeCommit]
  rw [htw, hdw]
  rw [if_neg (fun hcon => hnotree hcon.2)]
  rw [if_pos ⟨by simpa [List.reverse_eq_nil_iff] using hne,
      List.suffix_append b commitS⟩]
  rw [List.length_append, Nat.add_sub_cancel, List.take_left]

/-- `stripSuffixIf` never lengthens its input. -/
theorem stripSuffixIf_length_le (suf u : Str) :
    (stripSuffixIf suf u).length ≤ u.length := by
  simp only [stripSuffixIf]
  split
  · simp only [List.length_take]
    omega
  · exact Nat.le_refl _

/-- A length-preserving `stripSuffixIf` with a nonempty suffix stripped
nothing. -/
theorem stripSuffixIf_eq_of_length {suf u : Str} (hs : suf ≠ [])
    (hl : (stripSuffixIf suf u).length = u.length) :
    stripSuffixIf suf u = u := by
  rcases stripSuffixIf_cases suf u with hc | hc
  · exfalso
    have hlen := congrArg List.length hc
    rw [List.length_append] at hlen
    have hslen : 0 < suf.length := by
      cases suf with
      | nil => exact absurd rfl hs
      | cons _ _ => simp
    omega
  · exact hc.2

/-- `stripTreeCommit` never lengthens its input. -/
theorem stripTreeCommit_length_le (u : Str) :
    (stripTreeCommit u).length ≤ u.length := by
  have hcore : ((u.reverse.dropWhile hexDigit).reverse).length ≤ u.length := by
    rw [List.length_reverse]
    have := (List.dropWhile_suffix (l := u.reverse) hexDigit).length_le
    rw [List.length_reverse] at this
    exact this
  simp only [stripTreeCommit]
  split
  · simp only [List.length_take]
    omega
  · split
    · simp only [List.length_take]
      omega
    · exact Nat.le_refl _

/-- A length-preserving `stripTreeCommit` stripped nothing. -/
theorem stripTreeCommit_eq_of_length {u : Str}
    (hl : (stripTreeCommit u).length = u.length) :
    stripTreeCommit u = u := by
  have hcore : ((u.reverse.dropWhile hexDigit).reverse).length ≤ u.length := by
    rw [List.length_reverse]
    have := (List.dropWhile_suffix (l := u.reverse) hexDigit).length_le
    rw [List.length_reverse] at this
    exact this
  rw [stripTreeCommit] at hl ⊢
  split at hl
  · exfalso
    rename_i hcond
    have h6 : treeS.length ≤ ((u.reverse.dropWhile hexDigit).reverse).length :=
      hcond.2.length_le
    simp only [List.length_take] at hl
    have : treeS.length = 6 := by decide
    omega
  · split at hl
    · exfalso
      rename_i hcond
      have h8 : commitS.length ≤
          ((u.reverse.dropWhile hexDigit).reverse).length :=
        hcond.2.length_le
      simp only [List.length_take] at hl
      have : commitS.length = 8 := by decide
      omega
    · rename_i h1 h2
      rw [if_neg h1, if_neg h2]

/-- A fixed point of `normalizeRepoUrl` is fixed by each stage. -/
theorem normalize_fixes {b : Str} (hb : normalizeRepoUrl b = b) :
    stripSuffixIf slashS b = b ∧ stripSuffixIf gitS b = b ∧
    stripTreeCommit b = b := by
  have hb' : stripTreeCommit (stripSuffixIf gitS (stripSuffixIf slashS b)) = b :=
    hb
  have l1 := stripSuffixIf_length_le slashS b
  have l2 := stripSuffixIf_length_le gitS (stripSuffixIf slashS b)
  have l3 := stripTreeCommit_length_le (stripSuffixIf gitS (stripSuffixIf slashS b))
  have hlen : (stripTreeCommit (stripSuffixIf gitS (stripSuffixIf slashS b))).length
      = b.length := by rw [hb']
  have h1 : stripSuffixIf slashS b = b :=
    stripSuffixIf_eq_of_length (by decide) (by omega)
  rw [h1] at hb' l2 l3 hlen
  have h2 : stripSuffixIf gitS b = b :=
    stripSuffixIf_eq_of_length (by decide) (by omega)
  rw [h2] at hb'
  exact ⟨h1, h2, hb'⟩

/-- A hex last character rules out the `/` and `.git` suffixes. -/
theorem strip_slash_git_noop {u : Str} {c : Char} (hu : u.getLast? = some c)
    (hc : hexDigit c = true) :
    stripSuffixIf slashS u = u ∧ stripSuffixIf gitS u = u := by
  constructor
  · refine stripSuffixIf_noop (d := '/') hu (by decide) ?_
    intro hcon
    rw [hcon] at hc
    exact absurd hc (by decide)
  · refine stripSuffixIf_noop (d := 't') hu (by decide) ?_
    intro hcon
    rw [hcon] at hc
    exact absurd hc (by decide)

/-- Normalizing a clean base with any handled trailing shape yields the
base. -/
theorem normalize_append_shape {b : Str} (h : Str)
    (hb : normalizeRepoUrl b = b) (hne : h ≠ [])
    (hhex : ∀ c ∈ h, hexDigit c = true) :
    ∀ s ∈ shapes h, normalizeRepoUrl (b ++ s) = b := by
  obtain ⟨hslash, hgit, htc⟩ := normalize_fixes hb
  obtain ⟨c, hcl, hchex⟩ := hexLast hne hhex
  have hlast : ∀ t : Str, (t ++ h).getLast? = some c := by
    intro t
    rw [List.getLast?_append, hcl]
    rfl
  intro s hs
  simp only [shapes, List.mem_cons, List.not_mem_nil, or_false] at hs
  rcases hs with rfl | rfl | rfl | rfl | rfl | rfl | rfl | rfl
  · rw [List.append_nil]
    exact hb
  · rw [normalizeRepoUrl, stripSuffixIf_append, hgit, htc]
  · have hnoslash : stripSuffixIf slashS (b ++ gitS) = b ++ gitS := by
      refine stripSuffixIf_noop (c := 't') (d := '/') ?_ (by decide) (by decide)
      rw [List.getLast?_append]
      rfl
    rw [normalizeRepoUrl, hnoslash, stripSuffixIf_append, htc]
  · rw [show b ++ (gitS ++ slashS) = (b ++ gitS) ++ slashS from
      (List.append_assoc b gitS slashS).symm]
    rw [normalizeRepoUrl, stripSuffixIf_append, stripSuffixIf_append, htc]
  · rw [show b ++ (treeS ++ h) = b ++ treeS ++ h from
      (List.append_assoc b treeS h).symm]
    obtain ⟨h1, h2⟩ := strip_slash_git_noop (hlast (b ++ treeS)) hchex
    rw [normalizeRepoUrl, h1, h2, stripTreeCommit_tree b h hne hhex]
  · rw [show b ++ (commitS ++ h) = b ++ commitS ++ h from
      (List.append_assoc b commitS h).symm]
    obtain ⟨h1, h2⟩ := strip_slash_git_noop (hlast (b ++ commitS)) hchex
    rw [normalizeRepoUrl, h1, h2, stripTreeCommit_commit b h hne hhex]
  · rw [show b ++ (treeS ++ h ++ slashS) = (b ++ treeS ++ h) ++ slashS by
      simp [List.append_assoc]]
    obtain ⟨h1, h2⟩ := strip_slash_git_noop (hlast (b ++ treeS)) hchex
    rw [normalizeRepoUrl, stripSuffixIf_append, h2,
      stripTreeCommit_tree b h hne hhex]
  · rw [show b ++ (commitS ++ h ++ slashS) = (b ++ commitS ++ h) ++ slashS by
      simp [List.append_assoc]]
    obtain ⟨h1, h2⟩ := strip_slash_git_noop (hlast (b ++ commitS)) hchex
    rw [normalizeRepoUrl, stripSuffixIf_append, h2,
      stripTreeCommit_commit b h hne hhex]

/-- C6: on every handled URL shape — a clean base followed by nothing, a
trailing slash, `.git`, `.git/`, `/tree/<hash>`, `/commit/<hash>`, or
those segments with a trailing slash — `normalizeRepoUrl` is
idempotent. -/
theorem normalizeRepoUrl_idempotent (b h : Str)
    (hb : normalizeRepoUrl b = b) (hne : h ≠ [])
    (hhex : ∀ c ∈ h, hexDigit c = true) :
    ∀ s ∈ shapes h,
      normalizeRepoUrl (normalizeRepoUrl (b ++ s)) = normalizeRepoUrl (b ++ s) := by
  intro s hs
  rw [normalize_append_shape h hb hne hhex s hs, hb]

/-- C6 witness: idempotence at the canonical URL with a concrete
`/tree/<hash>` suffix. -/
theorem normalizeRepoUrl_idempotent_witness :
    normalizeRepoUrl (normalizeRepoUrl (CANON ++ (treeS ++ "abc123".data))) =
      normalizeRepoUrl (CANON ++ (treeS ++ "abc123".data)) :=
  normalizeRepoUrl_idempotent CANON "abc123".data (by decide) (by decide)
    (by decide) (treeS ++ "abc123".data) (by decide)

end BuildVerifier
